import Mathlib

/-!
# Verification of the House_prediction cleaning/training pipeline

A shallow embedding of the data-cleaning and prediction code of the
`House_prediction` repository (`src/utils.py`, `src/server.py`) together
with proofs of the specification claims about it.

Conventions of the embedding:
* pandas cells are modelled by `Cell` (a string, a number, or NaN);
* numeric pandas values are modelled by `PyNum := Option ℚ`
  (`none` is NaN; comparisons with NaN are `false`, as in pandas);
* machine floats are modelled by exact rationals for the tabular data and by
  real numbers for the log/exp price transform;
* code that can raise a Python exception returns `Except String _`;
  an `Except.error` result models an uncaught exception aborting the run;
* `re.findall` for the fixed alternation pattern of `extract_details` is
  modelled by a left-to-right scanner that tries the alternatives in
  pattern order at every position (ASCII case-insensitively, matching
  `Char.toLower`-folding) and skips one character when none matches.
-/

deriving instance DecidableEq for Except

set_option maxRecDepth 8000

namespace HousePred

/-! ## Field cleaners (`src/utils.py`) -/

/-- `clean_text` (utils.py): `re.sub(r"\D+", "", text)` — remove every
non-digit character, keeping the digits in order. -/
def clean_text (text : String) : String :=
  String.mk (text.data.filter Char.isDigit)

/-- Python's `str.split(",")` on a character list: split at every comma,
keeping empty segments; `""` splits to `[""]`. -/
def splitCommaChars : List Char → List (List Char)
  | [] => [[]]
  | c :: cs =>
    match splitCommaChars cs with
    | [] => [[c]]
    | h :: t => if c = ',' then [] :: h :: t else (c :: h) :: t

/-- Python's `addr.split(",")`. -/
def pySplitComma (s : String) : List String :=
  (splitCommaChars s.data).map String.mk

/-- Python's whitespace test for `str.strip()` (space, tab, newline,
carriage return, vertical tab, form feed). -/
def isPySpace (c : Char) : Bool :=
  c = ' ' || c = '\t' || c = '\n' || c = '\r' || c = '\x0b' || c = '\x0c'

/-- Python's `str.strip()`: remove leading and trailing whitespace. -/
def pyStrip (s : String) : String :=
  String.mk (((s.data.dropWhile isPySpace).reverse.dropWhile isPySpace).reverse)

/-- Python's list slice `l[-2:-1]`: the singleton holding the second-to-last
element when the list has at least two elements, `[]` otherwise. -/
def pySliceSecondLast {α : Type} (l : List α) : List α :=
  if 2 ≤ l.length then (l.drop (l.length - 2)).take 1 else []

/-- `get_address` (utils.py): split the address on commas, select the
second-to-last segment (`[-2:-1]`), strip whitespace, join on `", "`. -/
def get_address (addr : String) : String :=
  let result := pySliceSecondLast (pySplitComma addr)
  let result := result.map pyStrip
  String.intercalate ", " result

/-- The alternatives of the regex
`house|terraced|semi-detached|detached|block of flats|duplex|bungalow|mansion`
of `extract_details` (utils.py), in pattern order, as lower-case
character lists. -/
def vocab : List (List Char) :=
  ["house".data, "terraced".data, "semi-detached".data, "detached".data,
   "block of flats".data, "duplex".data, "bungalow".data, "mansion".data]

/-- Case-insensitive prefix test: does the lower-case pattern `p` match the
beginning of `s` after lower-casing `s`? -/
def matchCI : List Char → List Char → Bool
  | [], _ => true
  | _ :: _, [] => false
  | p :: ps, c :: cs => p == c.toLower && matchCI ps cs

/-- One alternation attempt of the scanner: the first alternative of `vocab`
(in pattern order) that matches at the head of `s`, returned as the matched
substring of `s` (with its original case, as `re.findall` returns it). -/
def matchAlt (s : List Char) : Option (List Char) :=
  (vocab.find? (fun p => matchCI p s)).map (fun p => s.take p.length)

/-- Fuel-driven left-to-right scanner for `re.findall(pattern, text, re.I)`:
at each position try the alternation; on a match record the matched substring
and resume after it, otherwise advance one character. `fuel ≥ s.length`
makes the fuel irrelevant. -/
def findAllF : Nat → List Char → List (List Char)
  | 0, _ => []
  | _ + 1, [] => []
  | fuel + 1, c :: cs =>
    match matchAlt (c :: cs) with
    | some m => m :: findAllF fuel ((c :: cs).drop m.length)
    | none => findAllF fuel cs

/-- `re.findall(pattern, text, flags=re.I)` for the alternation `vocab`. -/
def findAll (s : List Char) : List (List Char) :=
  findAllF s.length s

/-- `" ".join(result)` on character lists. -/
def joinSpaces (ms : List (List Char)) : List Char :=
  List.intercalate [' '] ms

/-- Python `str.title()` worker: `prev` records whether the previous
character was alphabetic; alphabetic characters are upper-cased after a
non-alphabetic character and lower-cased otherwise. -/
def titleAux : Bool → List Char → List Char
  | _, [] => []
  | prev, c :: cs =>
    if c.isAlpha then
      (if prev then c.toLower else c.toUpper) :: titleAux true cs
    else
      c :: titleAux false cs

/-- Python `str.title()`. -/
def pythonTitle (s : List Char) : List Char :=
  titleAux false s

/-- `extract_details` (utils.py): find all occurrences of the dwelling-type
vocabulary (case-insensitively), join them with spaces, title-case. -/
def extract_details (text : String) : String :=
  String.mk (pythonTitle (joinSpaces (findAll text.data)))

/-! ## Data model -/

/-- A pandas cell of the scraped table: a string, a number (a column that
`read_csv` inferred as numeric), or a missing value (NaN). -/
inductive Cell : Type
  | str (s : String)
  | num (q : ℚ)
  | na
deriving DecidableEq, Repr

/-- A raw listing record, the row shape written by `scrape_data.py`:
columns `title, address, bed, bath, toilet, pkn_space, price`. -/
structure RawRow : Type where
  title : Cell
  address : Cell
  bed : Cell
  bath : Cell
  toilet : Cell
  pkn_space : Cell
  price : Cell
deriving DecidableEq, Repr

/-- A record after the column-wise cleaning loop: every column holds a
string (`extract_details`/`get_address`/`clean_text` all return strings). -/
structure CleanRow : Type where
  title : String
  address : String
  bed : String
  bath : String
  toilet : String
  pkn_space : String
  price : String
deriving DecidableEq, Repr

/-- A pandas numeric value: a rational, or `none` for NaN. -/
abbrev PyNum : Type := Option ℚ

/-- A record after `pd.to_numeric` and the renames `title→type`,
`address→location`. -/
structure NumRow : Type where
  typ : String
  location : String
  bed : PyNum
  bath : PyNum
  toilet : PyNum
  pkn_space : PyNum
  price : PyNum
deriving DecidableEq, Repr

/-- Is the cell a missing value? (`pd.isna` on a cell.) -/
def Cell.isNa : Cell → Bool
  | .na => true
  | _ => false

/-- `df.dropna()`: keep the rows in which no column is missing. -/
def dropna (tbl : List RawRow) : List RawRow :=
  tbl.filter (fun r =>
    !r.title.isNa && !r.address.isNa && !r.bed.isNa && !r.bath.isNa &&
    !r.toilet.isNa && !r.pkn_space.isNa && !r.price.isNa)

/-- Applying a Python string function to a cell: a non-string cell raises
(`TypeError`), exactly as `get_address`/`extract_details`/`clean_text` do
when `Series.apply` hands them a float or NaN. -/
def Cell.asStr : Cell → Except String String
  | .str s => .ok s
  | _ => .error "TypeError"

/-- Is the cell a string? -/
def Cell.isStr : Cell → Bool
  | .str _ => true
  | _ => false

/-- The string held by a string cell (`""` otherwise). -/
def Cell.getStr : Cell → String
  | .str s => s
  | _ => ""

/-- The cleaning loop of `clean_data_n_return_estimator` on one row:
`address → get_address`, `title → extract_details`, every other column →
`clean_text`. No cleaner call is wrapped; a non-string cell propagates the
exception. -/
def cleanRow (r : RawRow) : Except String CleanRow := do
  let t ← r.title.asStr
  let a ← r.address.asStr
  let bd ← r.bed.asStr
  let ba ← r.bath.asStr
  let to_ ← r.toilet.asStr
  let pk ← r.pkn_space.asStr
  let pr ← r.price.asStr
  pure ⟨extract_details t, get_address a, clean_text bd, clean_text ba,
        clean_text to_, clean_text pk, clean_text pr⟩

/-- Row-wise effectful map: the first raised exception aborts the whole
traversal, as an uncaught exception aborts a pandas `apply`. -/
def mapE {α β : Type} (f : α → Except String β) : List α → Except String (List β)
  | [] => .ok []
  | a :: as => do
    let b ← f a
    let bs ← mapE f as
    pure (b :: bs)

/-- The cleaning stage of the pipeline: `df.dropna()` followed by the
column-wise cleaning loop.  Any raising cleaner call aborts the stage. -/
def cleanStage (tbl : List RawRow) : Except String (List CleanRow) :=
  mapE cleanRow (dropna tbl)

/-- The numeric value of a digit string. -/
def digitsVal (cs : List Char) : Nat :=
  cs.foldl (fun a c => 10 * a + (c.toNat - 48)) 0

/-- `pd.to_numeric` on one cleaned cell (default `errors="raise"`), on the
value domain that the pipeline feeds it: outputs of `clean_text`, which are
digit-only strings.  A non-empty digit string parses to its value, the
string "nan" (unreachable after `clean_text`) parses to NaN, and anything
else — in particular the empty string — raises `ValueError`. -/
def parseNum (s : String) : Except String PyNum :=
  if s.data ≠ [] ∧ s.data.all Char.isDigit then .ok (some (digitsVal s.data : ℚ))
  else if String.mk (s.data.map Char.toLower) = "nan" then .ok none
  else .error "ValueError: Unable to parse string"

/-- `pd.to_numeric` over the columns `bed, bath, toilet, pkn_space, price`
of one row, together with the later renames `title→type`,
`address→location` (which only relabel columns). -/
def coerceRow (r : CleanRow) : Except String NumRow := do
  let bd ← parseNum r.bed
  let ba ← parseNum r.bath
  let to_ ← parseNum r.toilet
  let pk ← parseNum r.pkn_space
  let pr ← parseNum r.price
  pure ⟨r.title, r.address, bd, ba, to_, pk, pr⟩

/-- The numeric-coercion stage: `pd.to_numeric` over every row; a failing
value raises and aborts the stage. -/
def coerceStage (t2 : List CleanRow) : Except String (List NumRow) :=
  mapE coerceRow t2

/-- The pipeline up to and including numeric coercion: dropna, cleaning
loop, `pd.to_numeric` on the five numeric columns. -/
def postCoerce (tbl : List RawRow) : Except String (List NumRow) :=
  cleanStage tbl >>= coerceStage

/-! ## Row filters and the percentile cutoff -/

/-- Scalar comparison of a pandas value with a constant: `x > q`.
NaN compares `false`, as in pandas. -/
def numGt (a : PyNum) (q : ℚ) : Bool :=
  match a with
  | some x => decide (q < x)
  | none => false

/-- Scalar comparison of a pandas value with a constant: `x < q`. -/
def numLt (a : PyNum) (q : ℚ) : Bool :=
  match a with
  | some x => decide (x < q)
  | none => false

/-- Comparison of two pandas values: `x ≤ y`; `false` when either is NaN. -/
def numLe (a b : PyNum) : Bool :=
  match a, b with
  | some x, some y => decide (x ≤ y)
  | _, _ => false

/-- The three range filters of `clean_data_n_return_estimator`, in source
order: `bed>1 ∧ toilet<8`, then `bath>1 ∧ bath<8`, then
`pkn_space>2 ∧ pkn_space<11`. -/
def rangeFilters (t : List NumRow) : List NumRow :=
  ((t.filter (fun r => numGt r.bed 1 && numLt r.toilet 8)).filter
      (fun r => numGt r.bath 1 && numLt r.bath 8)).filter
    (fun r => numGt r.pkn_space 2 && numLt r.pkn_space 11)

/-- Insertion of a rational into a sorted list (ascending). -/
def insertQ (x : ℚ) : List ℚ → List ℚ
  | [] => [x]
  | y :: ys => if x ≤ y then x :: y :: ys else y :: insertQ x ys

/-- Ascending sort of rationals, as `np.percentile` sorts its input. -/
def sortQ : List ℚ → List ℚ
  | [] => []
  | x :: xs => insertQ x (sortQ xs)

/-- `np.percentile(xs, 96)` with the default linear interpolation, on a
non-empty list: sort ascending, take the value at fractional rank
`0.96·(n-1)`, interpolating linearly between the neighbouring entries. -/
def percentile96 (xs : List ℚ) : ℚ :=
  let s := sortQ xs
  let n := s.length
  let rank : ℚ := (96 * ((n : ℚ) - 1)) / 100
  let i : Nat := rank.floor.toNat
  let lo := s.getD i 0
  let hi := s.getD (i + 1) lo
  lo + (rank - (i : ℚ)) * (hi - lo)

/-- `np.percentile` over a pandas column: NaN anywhere makes the result
NaN; otherwise interpolate over the values. -/
def percentileP (xs : List PyNum) : PyNum :=
  if xs.any (fun x => x.isNone) then none
  else some (percentile96 (xs.filterMap id))

/-- The outlier cutoff step: compute the 96th percentile of `price` over the
range-filtered set and keep the rows with `price ≤ cut_off`.
`np.percentile` of an empty column raises (`IndexError`). -/
def priceCutoff (t4 : List NumRow) : Except String (List NumRow) :=
  if t4.isEmpty then .error "IndexError: cannot do a non-empty take"
  else
    let cutoff := percentileP (t4.map (fun r => r.price))
    .ok (t4.filter (fun r => numLe r.price cutoff))

/-- The row-filtering stage: the three range filters followed by the
percentile cutoff. -/
def filterChain (t : List NumRow) : Except String (List NumRow) :=
  priceCutoff (rangeFilters t)

/-! ## Median imputation, top-15 locations -/

/-- `Series.median()` of a pandas column: NaN values are skipped; the median
of the remaining sorted values (mean of the two middle ones for an even
count), NaN for an all-NaN/empty column. -/
def pyMedian (xs : List PyNum) : PyNum :=
  let v := sortQ (xs.filterMap id)
  let n := v.length
  if n = 0 then none
  else if n % 2 = 1 then some (v.getD (n / 2) 0)
  else some ((v.getD (n / 2 - 1) 0 + v.getD (n / 2) 0) / 2)

/-- The imputation step:
`np.where(pd.isna(df["pkn_space"]), median, df["pkn_space"])`. -/
def imputeStage (t : List NumRow) : List NumRow :=
  let med := pyMedian (t.map (fun r => r.pkn_space))
  t.map (fun r =>
    { r with pkn_space := if r.pkn_space.isNone then med else r.pkn_space })

/-- Stable insertion by a Boolean "may come first" relation. -/
def insertBy {α : Type} (le : α → α → Bool) (x : α) : List α → List α
  | [] => [x]
  | y :: ys => if le x y then x :: y :: ys else y :: insertBy le x ys

/-- Stable insertion sort by a Boolean "may come first" relation. -/
def sortBy {α : Type} (le : α → α → Bool) : List α → List α
  | [] => []
  | x :: xs => insertBy le x (sortBy le xs)

/-- Lexicographic code-point comparison of character lists (Python's
string `<`). -/
def lexLt : List Char → List Char → Bool
  | [], [] => false
  | [], _ :: _ => true
  | _ :: _, [] => false
  | c :: cs, d :: ds => if c < d then true else if d < c then false else lexLt cs ds

/-- The crosstab of `location` (its index is the distinct locations in
ascending string order) paired with the occurrence counts. -/
def locTable (t : List NumRow) : List (String × Nat) :=
  (sortBy (fun a b => !lexLt b.data a.data) ((t.map (fun r => r.location)).dedup)).map
    (fun l => (l, (t.map (fun r => r.location)).count l))

/-- The top-15 location selection of `clean_data_n_return_estimator`:
sort the crosstab by count descending (`sort_values(ascending=False)`),
take the first 15 rows, keep the location keys. -/
def top15 (t : List NumRow) : List String :=
  ((sortBy (fun a b => b.2 ≤ a.2) (locTable t)).take 15).map (fun p => p.1)

/-- The location-truncation step: keep the rows whose location is in the
top-15 list (`df.loc[df["location"].isin(locations)]`). -/
def locationStage (t : List NumRow) : List NumRow :=
  t.filter (fun r => (top15 t).contains r.location)

/-- The pipeline from the coerced table to the cleaned dataset (the table
on which the encoders and the regressor are fitted, before `price` is
replaced by `log_price`): range filters, percentile cutoff, median
imputation, top-15 location truncation. -/
def pipelineTail (t3 : List NumRow) : Except String (List NumRow) :=
  (filterChain t3).map (fun t5 => locationStage (imputeStage t5))

/-- The cleaned dataset produced by the training pipeline. -/
def cleanedDataset (tbl : List RawRow) : Except String (List NumRow) :=
  postCoerce tbl >>= pipelineTail

/-! ## Predictor glue (`src/server.py`) -/

/-- `LabelEncoder.transform` on one label, `classes` being the fitted
`classes_`: the integer code of a seen label; a `ValueError` for a label
that was not seen at fit time. -/
def le_transform (classes : List String) (label : String) : Except String Nat :=
  match classes.indexOf? label with
  | some i => .ok i
  | none => .error ("ValueError: y contains previously unseen labels: " ++ label)

/-- The POST form fields of the `/predict` route. -/
structure QueryForm : Type where
  location : String
  bed : String
  bath : String
  toilet : String
  pkn_space : String
deriving DecidableEq, Repr

/-- Python `round(x, 0)` (round half to even) on a real value. -/
noncomputable def pyRound0 (x : ℝ) : ℝ :=
  ((if Int.fract x = 1 / 2 then (if Even ⌊x⌋ then ⌊x⌋ else ⌊x⌋ + 1)
    else round x : ℤ) : ℝ)

/-- The training-time price transform (utils.py):
`log_price = np.log(price + 1)`. -/
noncomputable def log_transform (p : ℝ) : ℝ :=
  Real.log (p + 1)

/-- The prediction-time inversion (server.py):
`act_price = np.exp(price) + 1`. -/
noncomputable def invert_price (lp : ℝ) : ℝ :=
  Real.exp lp + 1

/-- Numeric conversion of a form field inside `reg.predict` (sklearn turns
the string array into floats; a non-numeric string raises `ValueError`).
The form fields of interest are whole numbers. -/
def parseFeature (s : String) : Except String ℚ :=
  if s.data ≠ [] ∧ s.data.all Char.isDigit then .ok (digitsVal s.data : ℚ)
  else .error "ValueError: could not convert string to float"

/-- The body of the `/predict` route (server.py): encode the location with
the frozen encoder, assemble the feature vector, run the regressor `reg`
(abstracted as a function from the features to the predicted log-price),
invert with `np.exp(price) + 1` and round.  The unseen-label `ValueError`
of `le_transform` propagates: no estimate is produced. -/
noncomputable def predictPrice (reg : ℚ → ℚ → ℚ → ℚ → ℚ → ℝ)
    (classes : List String) (f : QueryForm) : Except String ℝ := do
  let code ← le_transform classes f.location
  let bd ← parseFeature f.bed
  let ba ← parseFeature f.bath
  let to_ ← parseFeature f.toilet
  let pk ← parseFeature f.pkn_space
  pure (pyRound0 (invert_price (reg (code : ℚ) bd ba to_ pk)))

/-! ## Claim C3: the city extractor -/

/-- C3 — For every address string that splits on commas into at least two
segments, `get_address` returns exactly the second-to-last segment with
leading and trailing whitespace removed; for every address with fewer than
two segments it returns the empty string. -/
theorem get_address_secondToLast (addr : String) :
    (2 ≤ (pySplitComma addr).length →
      get_address addr =
        pyStrip ((pySplitComma addr).getD ((pySplitComma addr).length - 2) "")) ∧
    ((pySplitComma addr).length < 2 → get_address addr = "") := by
  constructor
  · intro h
    have hlt : (pySplitComma addr).length - 2 < (pySplitComma addr).length := by
      omega
    have hgd : (pySplitComma addr).getD ((pySplitComma addr).length - 2) "" =
        (pySplitComma addr)[(pySplitComma addr).length - 2] := by
      simp [List.getD_eq_getElem?_getD, List.getElem?_eq_getElem hlt]
    show String.intercalate ", "
        ((pySliceSecondLast (pySplitComma addr)).map pyStrip) = _
    unfold pySliceSecondLast
    rw [if_pos h, List.drop_eq_getElem_cons hlt, List.take_succ_cons,
      List.take_zero, List.map_cons, List.map_nil, hgd]
    rfl
  · intro h
    show String.intercalate ", "
        ((pySliceSecondLast (pySplitComma addr)).map pyStrip) = _
    unfold pySliceSecondLast
    rw [if_neg (by omega)]
    rfl

/-- Witness for C3 at a concrete address with three segments. -/
theorem get_address_secondToLast_witness :
    get_address "Lekki, Lagos, Nigeria" =
      pyStrip ((pySplitComma "Lekki, Lagos, Nigeria").getD
        ((pySplitComma "Lekki, Lagos, Nigeria").length - 2) "") :=
  (get_address_secondToLast "Lekki, Lagos, Nigeria").1 (by decide)

/-! ## Claim C4: the log-price round trip -/

/-- C4 — The price inversion actually used at prediction time is
`exp(log_price) + 1` (server.py), not the inverse of the training transform
`log(price + 1)` (utils.py): at the price `p = 1` the round trip returns
`3`, not `1`.  In general the composition returns `p + 2`. -/
theorem roundtrip_fails_at_one :
    invert_price (log_transform 1) = 3 ∧ invert_price (log_transform 1) ≠ 1 := by
  have h : invert_price (log_transform 1) = 3 := by
    unfold invert_price log_transform
    rw [show (1 : ℝ) + 1 = 2 by norm_num, Real.exp_log (by norm_num)]
    norm_num
  exact ⟨h, by rw [h]; norm_num⟩

/-! ## Claim C5: unseen location at prediction time -/

/-- C5 — A prediction request whose location was not among the labels
fitted into the location encoder makes the predictor fail with an explicit
unseen-label `ValueError`; no estimate is returned. -/
theorem predict_unseen_location_errors (reg : ℚ → ℚ → ℚ → ℚ → ℚ → ℝ)
    (classes : List String) (f : QueryForm) (h : f.location ∉ classes) :
    predictPrice reg classes f =
      Except.error ("ValueError: y contains previously unseen labels: " ++
        f.location) := by
  have henc : le_transform classes f.location =
      Except.error ("ValueError: y contains previously unseen labels: " ++
        f.location) := by
    unfold le_transform
    rw [List.indexOf?_eq_none_iff.mpr]
    intro x hx
    exact fun hbeq => h (by simpa [eq_of_beq hbeq] using hx)
  unfold predictPrice
  rw [henc]
  rfl

/-- Witness for C5: a concrete form with a location that was never fitted. -/
theorem predict_unseen_location_errors_witness :
    predictPrice (fun _ _ _ _ _ => 0) ["Ajah", "Lekki"]
        ⟨"Ikeja", "3", "3", "3", "3"⟩ =
      Except.error ("ValueError: y contains previously unseen labels: " ++
        "Ikeja") :=
  predict_unseen_location_errors (fun _ _ _ _ _ => 0) ["Ajah", "Lekki"]
    ⟨"Ikeja", "3", "3", "3", "3"⟩ (by decide)

/-! ## Claim C2: the top-15 location truncation -/

/-- C2 — After the location-truncation step, a row is retained exactly when
it was present before the step and its location belongs to the top-15 list
(occurrences counted per location, sorted descending by count, first 15
keys). -/
theorem locationStage_mem (t : List NumRow) (r : NumRow) :
    r ∈ locationStage t ↔ r ∈ t ∧ r.location ∈ top15 t := by
  unfold locationStage
  rw [List.mem_filter]
  simp

/-- Witness for C2 at a concrete table. -/
theorem locationStage_mem_witness :
    (⟨"Duplex", "Lagos", some 3, some 3, some 3, some 3, some 5⟩ : NumRow) ∈
      locationStage [⟨"Duplex", "Lagos", some 3, some 3, some 3, some 3, some 5⟩] :=
  (locationStage_mem _ _).mpr ⟨by decide, by decide⟩

/-! ## Helper lemmas about the pipeline stages -/

theorem ebind_error {β γ : Type} (e : String) (k : β → Except String γ) :
    (Except.error e >>= k) = Except.error e := rfl

theorem ebind_ok {β γ : Type} (b : β) (k : β → Except String γ) :
    (Except.ok b >>= k) = k b := rfl

/-- A successful `priceCutoff` is the `price ≤ cutoff` filter. -/
theorem priceCutoff_ok {t4 t5 : List NumRow} (h : priceCutoff t4 = .ok t5) :
    t5 = t4.filter
      (fun r => numLe r.price (percentileP (t4.map (fun x => x.price)))) := by
  simp only [priceCutoff] at h
  by_cases he : t4.isEmpty
  · rw [if_pos he] at h; simp at h
  · rw [if_neg he] at h
    cases h
    rfl

/-- Membership in the range-filtered table gives the six range
predicates. -/
theorem mem_rangeFilters {t : List NumRow} {r : NumRow}
    (h : r ∈ rangeFilters t) :
    r ∈ t ∧ numGt r.bed 1 = true ∧ numLt r.toilet 8 = true ∧
      numGt r.bath 1 = true ∧ numLt r.bath 8 = true ∧
      numGt r.pkn_space 2 = true ∧ numLt r.pkn_space 11 = true := by
  unfold rangeFilters at h
  rw [List.mem_filter] at h
  obtain ⟨h2, hp3⟩ := h
  rw [List.mem_filter] at h2
  obtain ⟨h1, hp2⟩ := h2
  rw [List.mem_filter] at h1
  obtain ⟨ht, hp1⟩ := h1
  rw [Bool.and_eq_true] at hp1 hp2 hp3
  exact ⟨ht, hp1.1, hp1.2, hp2.1, hp2.2, hp3.1, hp3.2⟩

/-- `rangeFilters` is the identity on a table all of whose rows pass it. -/
theorem rangeFilters_eq_self {t : List NumRow}
    (h : ∀ r ∈ t, numGt r.bed 1 = true ∧ numLt r.toilet 8 = true ∧
      numGt r.bath 1 = true ∧ numLt r.bath 8 = true ∧
      numGt r.pkn_space 2 = true ∧ numLt r.pkn_space 11 = true) :
    rangeFilters t = t := by
  have h1 : t.filter (fun r => numGt r.bed 1 && numLt r.toilet 8) = t :=
    List.filter_eq_self.mpr (fun r hr => by
      rw [Bool.and_eq_true]; exact ⟨(h r hr).1, (h r hr).2.1⟩)
  have h2 : t.filter (fun r => numGt r.bath 1 && numLt r.bath 8) = t :=
    List.filter_eq_self.mpr (fun r hr => by
      rw [Bool.and_eq_true]; exact ⟨(h r hr).2.2.1, (h r hr).2.2.2.1⟩)
  have h3 : t.filter (fun r => numGt r.pkn_space 2 && numLt r.pkn_space 11) = t :=
    List.filter_eq_self.mpr (fun r hr => by
      rw [Bool.and_eq_true]; exact ⟨(h r hr).2.2.2.2.1, (h r hr).2.2.2.2.2⟩)
  unfold rangeFilters
  rw [h1, h2, h3]

/-- The parking column of a row that passed `pkn_space > 2` is not NaN. -/
theorem pkn_some_of_pass {r : NumRow} (h : numGt r.pkn_space 2 = true) :
    r.pkn_space.isNone = false := by
  unfold numGt at h
  cases hp : r.pkn_space with
  | none => rw [hp] at h; simp at h
  | some q => rfl

/-- `imputeStage` is the identity when no parking value is missing. -/
theorem imputeStage_eq_self {t : List NumRow}
    (h : ∀ r ∈ t, r.pkn_space.isNone = false) : imputeStage t = t := by
  unfold imputeStage
  have hmap : ∀ r ∈ t,
      ({ r with pkn_space := if r.pkn_space.isNone then
          pyMedian (t.map (fun x => x.pkn_space)) else r.pkn_space } : NumRow) =
        id r := by
    intro r hr
    rw [h r hr]
    rfl
  rw [List.map_congr_left hmap, List.map_id]

/-! ## Claim C1: range and percentile invariants of the cleaned dataset -/

/-- C1 — Every record of the cleaned dataset satisfies `bed > 1`,
`1 < bath < 8`, `toilet < 8`, `2 < pkn_space < 11`, and
`price ≤` the 96th percentile of `price`, the percentile being computed
once over the set that already passed the bed/bath/toilet/parking
filters. -/
theorem cleaned_rows_in_ranges (tbl : List RawRow) (t3 out : List NumRow)
    (r : NumRow) (_h3 : postCoerce tbl = .ok t3)
    (hout : pipelineTail t3 = .ok out) (hr : r ∈ out) :
    numGt r.bed 1 = true ∧ numGt r.bath 1 = true ∧ numLt r.bath 8 = true ∧
      numLt r.toilet 8 = true ∧ numGt r.pkn_space 2 = true ∧
      numLt r.pkn_space 11 = true ∧
      numLe r.price
        (percentileP ((rangeFilters t3).map (fun x => x.price))) = true := by
  unfold pipelineTail at hout
  cases h5 : filterChain t3 with
  | error e => rw [h5] at hout; simp [Except.map] at hout
  | ok t5 =>
    rw [h5] at hout
    simp only [Except.map] at hout
    cases hout
    have hr2 : r ∈ imputeStage t5 := by
      simp only [locationStage] at hr
      exact (List.mem_filter.mp hr).1
    unfold filterChain at h5
    have ht5 := priceCutoff_ok h5
    have hnone : ∀ x ∈ t5, x.pkn_space.isNone = false := by
      intro x hx
      rw [ht5] at hx
      exact pkn_some_of_pass
        (mem_rangeFilters (List.mem_filter.mp hx).1).2.2.2.2.2.1
    rw [imputeStage_eq_self hnone] at hr2
    rw [ht5] at hr2
    obtain ⟨hr4, hle⟩ := List.mem_filter.mp hr2
    have hrf := mem_rangeFilters hr4
    exact ⟨hrf.2.1, hrf.2.2.2.1, hrf.2.2.2.2.1, hrf.2.2.1,
      hrf.2.2.2.2.2.1, hrf.2.2.2.2.2.2, hle⟩

/-- Witness for C1: a concrete one-row pipeline run; the surviving row
satisfies the price-cutoff bound (the last conjunct of the theorem). -/
theorem cleaned_rows_in_ranges_witness :
    numLe (some 9)
      (percentileP ((rangeFilters
        [⟨"", "a", some 3, some 3, some 3, some 3, some 9⟩]).map
        (fun x => x.price))) = true :=
  (cleaned_rows_in_ranges
    [⟨.str "x", .str "a,b", .str "3", .str "3", .str "3", .str "3", .str "9"⟩]
    [⟨"", "a", some 3, some 3, some 3, some 3, some 9⟩]
    [⟨"", "a", some 3, some 3, some 3, some 3, some 9⟩]
    ⟨"", "a", some 3, some 3, some 3, some 3, some 9⟩
    (of_decide_eq_true (by with_unfolding_all rfl))
    (of_decide_eq_true (by with_unfolding_all rfl))
    (of_decide_eq_true (by with_unfolding_all rfl))).2.2.2.2.2.2

/-! ## Claim C10: the median imputation is a no-op -/

/-- C10 — At the point the `pkn_space` median imputation runs, the column
has no missing values (missing rows were dropped, the column was coerced,
and every surviving row passed the `pkn_space` range filter, which NaN
fails), so the imputation step leaves the table unchanged. -/
theorem imputation_noop (tbl : List RawRow) (t3 t5 : List NumRow)
    (_h3 : postCoerce tbl = .ok t3) (h5 : filterChain t3 = .ok t5) :
    imputeStage t5 = t5 := by
  unfold filterChain at h5
  have ht5 := priceCutoff_ok h5
  apply imputeStage_eq_self
  intro x hx
  rw [ht5] at hx
  exact pkn_some_of_pass
    (mem_rangeFilters (List.mem_filter.mp hx).1).2.2.2.2.2.1

/-- Witness for C10 on a concrete one-row pipeline run. -/
theorem imputation_noop_witness :
    imputeStage [⟨"", "a", some 3, some 3, some 3, some 3, some 9⟩] =
      [⟨"", "a", some 3, some 3, some 3, some 3, some 9⟩] :=
  imputation_noop
    [⟨.str "x", .str "a,b", .str "3", .str "3", .str "3", .str "3", .str "9"⟩]
    [⟨"", "a", some 3, some 3, some 3, some 3, some 9⟩]
    [⟨"", "a", some 3, some 3, some 3, some 3, some 9⟩]
    (of_decide_eq_true (by with_unfolding_all rfl))
    (of_decide_eq_true (by with_unfolding_all rfl))

/-! ## Claim C8: the filter chain is not idempotent -/

/-- C8 counterexample — running the filter chain twice drops more rows than
running it once: with prices `1, 3/2, 100` the first pass cuts at the 96th
percentile `92.12` (dropping `100`), the second pass recomputes the
percentile over the survivors, cuts at `1.48` and also drops `3/2`. -/
theorem filterChain_twice_ne_once :
    ((filterChain
        [⟨"D", "L", some 3, some 3, some 3, some 3, some 1⟩,
         ⟨"D", "L", some 3, some 3, some 3, some 3, some (3/2)⟩,
         ⟨"D", "L", some 3, some 3, some 3, some 3, some 100⟩]).bind
      filterChain) ≠
      filterChain
        [⟨"D", "L", some 3, some 3, some 3, some 3, some 1⟩,
         ⟨"D", "L", some 3, some 3, some 3, some 3, some (3/2)⟩,
         ⟨"D", "L", some 3, some 3, some 3, some 3, some 100⟩] :=
  of_decide_eq_true (by with_unfolding_all rfl)

/-- C8 amended — the range-filter part of the chain is idempotent, and the
full chain is contracting: a second application of the chain returns a
subset (sublist) of the rows of the first application.  It is not
idempotent, because the percentile cutoff is recomputed over the smaller
set. -/
theorem filterChain_contracting (t t₁ t₂ : List NumRow)
    (h₁ : filterChain t = .ok t₁) (h₂ : filterChain t₁ = .ok t₂) :
    rangeFilters (rangeFilters t) = rangeFilters t ∧ t₂.Sublist t₁ := by
  constructor
  · exact rangeFilters_eq_self (fun r hr => (mem_rangeFilters hr).2)
  · unfold filterChain at h₁ h₂
    have ht₁ := priceCutoff_ok h₁
    have hrf₁ : rangeFilters t₁ = t₁ := by
      apply rangeFilters_eq_self
      intro r hr
      rw [ht₁] at hr
      exact (mem_rangeFilters (List.mem_filter.mp hr).1).2
    rw [hrf₁] at h₂
    have ht₂ := priceCutoff_ok h₂
    rw [ht₂]
    exact List.filter_sublist t₁

/-- Witness for the amended C8 on the concrete three-price table. -/
theorem filterChain_contracting_witness :
    rangeFilters (rangeFilters
      [⟨"D", "L", some 3, some 3, some 3, some 3, some 1⟩,
       ⟨"D", "L", some 3, some 3, some 3, some 3, some (3/2)⟩,
       ⟨"D", "L", some 3, some 3, some 3, some 3, some 100⟩]) =
      rangeFilters
        [⟨"D", "L", some 3, some 3, some 3, some 3, some 1⟩,
         ⟨"D", "L", some 3, some 3, some 3, some 3, some (3/2)⟩,
         ⟨"D", "L", some 3, some 3, some 3, some 3, some 100⟩] ∧
    List.Sublist
      [(⟨"D", "L", some 3, some 3, some 3, some 3, some 1⟩ : NumRow)]
      [⟨"D", "L", some 3, some 3, some 3, some 3, some 1⟩,
       ⟨"D", "L", some 3, some 3, some 3, some 3, some (3/2)⟩] :=
  filterChain_contracting
    [⟨"D", "L", some 3, some 3, some 3, some 3, some 1⟩,
     ⟨"D", "L", some 3, some 3, some 3, some 3, some (3/2)⟩,
     ⟨"D", "L", some 3, some 3, some 3, some 3, some 100⟩]
    [⟨"D", "L", some 3, some 3, some 3, some 3, some 1⟩,
     ⟨"D", "L", some 3, some 3, some 3, some 3, some (3/2)⟩]
    [⟨"D", "L", some 3, some 3, some 3, some 3, some 1⟩]
    (of_decide_eq_true (by with_unfolding_all rfl))
    (of_decide_eq_true (by with_unfolding_all rfl))

/-! ## Claim C6: cleaner failures are not recovered -/

/-- C6 counterexample — the cleaner calls are not wrapped: a single
non-string cell (here a `bed` column that `read_csv` inferred as numeric)
makes the cleaning stage raise and abort the whole run; no missing-value
marker is substituted and the well-formed first row is lost too. -/
theorem cleanStage_aborts_on_cleaner_failure :
    cleanStage
      [⟨.str "x", .str "a,b", .str "3", .str "3", .str "3", .str "3", .str "9"⟩,
       ⟨.str "x", .str "a,b", .num 3, .str "3", .str "3", .str "3", .str "9"⟩] =
      .error "TypeError" :=
  of_decide_eq_true (by with_unfolding_all rfl)

/-- A string cell is not missing. -/
theorem cell_not_na_of_isStr {c : Cell} (h : c.isStr = true) :
    (!c.isNa) = true := by
  cases c <;> simp [Cell.isStr, Cell.isNa] at h ⊢

/-- Applying a Python string function to a string cell succeeds. -/
theorem cell_asStr_of_isStr {c : Cell} (h : c.isStr = true) :
    c.asStr = .ok c.getStr := by
  cases c <;> first | rfl | simp [Cell.isStr] at h

/-- On a row whose cells are all strings, the cleaning loop succeeds and
returns the cleaned fields. -/
theorem cleanRow_of_all_strings {r : RawRow}
    (h : (r.title.isStr && r.address.isStr && r.bed.isStr && r.bath.isStr &&
      r.toilet.isStr && r.pkn_space.isStr && r.price.isStr) = true) :
    cleanRow r = .ok
      ⟨extract_details r.title.getStr, get_address r.address.getStr,
       clean_text r.bed.getStr, clean_text r.bath.getStr,
       clean_text r.toilet.getStr, clean_text r.pkn_space.getStr,
       clean_text r.price.getStr⟩ := by
  simp only [Bool.and_eq_true] at h
  obtain ⟨⟨⟨⟨⟨⟨h1, h2⟩, h3⟩, h4⟩, h5⟩, h6⟩, h7⟩ := h
  unfold cleanRow
  rw [cell_asStr_of_isStr h1, ebind_ok, cell_asStr_of_isStr h2, ebind_ok,
    cell_asStr_of_isStr h3, ebind_ok, cell_asStr_of_isStr h4, ebind_ok,
    cell_asStr_of_isStr h5, ebind_ok, cell_asStr_of_isStr h6, ebind_ok,
    cell_asStr_of_isStr h7, ebind_ok]
  rfl

/-- C6 amended — the cleaners raise only on non-string fields; on a table
whose cells are all strings (every field extracted by the scraper), the
cleaning stage completes and cleans every record.  The recovery the spec
describes does not live here: a failing cleaner call aborts the whole run
(see the counterexample); missing markers are substituted upstream, by the
scraper, and `dropna` removes those rows before the cleaners run. -/
theorem cleanStage_ok_of_all_strings (tbl : List RawRow)
    (h : ∀ r ∈ tbl, (r.title.isStr && r.address.isStr && r.bed.isStr &&
      r.bath.isStr && r.toilet.isStr && r.pkn_space.isStr &&
      r.price.isStr) = true) :
    cleanStage tbl = .ok (tbl.map (fun r =>
      ⟨extract_details r.title.getStr, get_address r.address.getStr,
       clean_text r.bed.getStr, clean_text r.bath.getStr,
       clean_text r.toilet.getStr, clean_text r.pkn_space.getStr,
       clean_text r.price.getStr⟩)) := by
  unfold cleanStage
  have hdn : dropna tbl = tbl :=
    List.filter_eq_self.mpr (fun r hr => by
      have hh := h r hr
      simp only [Bool.and_eq_true] at hh
      obtain ⟨⟨⟨⟨⟨⟨h1, h2⟩, h3⟩, h4⟩, h5⟩, h6⟩, h7⟩ := hh
      simp only [Bool.and_eq_true]
      exact ⟨⟨⟨⟨⟨⟨cell_not_na_of_isStr h1, cell_not_na_of_isStr h2⟩,
        cell_not_na_of_isStr h3⟩, cell_not_na_of_isStr h4⟩,
        cell_not_na_of_isStr h5⟩, cell_not_na_of_isStr h6⟩,
        cell_not_na_of_isStr h7⟩)
  rw [hdn]
  clear hdn
  induction tbl with
  | nil => rfl
  | cons a as ih =>
    simp only [mapE, List.map_cons]
    rw [cleanRow_of_all_strings (h a (List.mem_cons_self a as)), ebind_ok,
      ih (fun r hr => h r (List.mem_cons_of_mem a hr)), ebind_ok]
    rfl

/-- Witness for the amended C6 on a concrete all-string table. -/
theorem cleanStage_ok_of_all_strings_witness :
    cleanStage
      [⟨.str "x", .str "a,b", .str "3", .str "3", .str "3", .str "3", .str "9"⟩] =
      .ok ([(⟨.str "x", .str "a,b", .str "3", .str "3", .str "3", .str "3",
        .str "9"⟩ : RawRow)].map (fun r =>
        ⟨extract_details r.title.getStr, get_address r.address.getStr,
         clean_text r.bed.getStr, clean_text r.bath.getStr,
         clean_text r.toilet.getStr, clean_text r.pkn_space.getStr,
         clean_text r.price.getStr⟩)) :=
  cleanStage_ok_of_all_strings
    [⟨.str "x", .str "a,b", .str "3", .str "3", .str "3", .str "3", .str "9"⟩]
    (by decide)

/-! ## Claim C7: a coercion failure aborts the whole run -/

/-- C7 counterexample — `pd.to_numeric(..., errors="raise")` raises on the
first non-coercible value: with a well-formed first row and a second row
whose `bed` cleaned to the empty string, the whole coercion stage errors;
the well-formed row is lost too, the pipeline does not continue with it. -/
theorem coerceStage_aborts_on_bad_value :
    coerceStage
      [⟨"", "a", "3", "3", "3", "3", "9"⟩, ⟨"", "a", "", "3", "3", "3", "9"⟩] =
      .error "ValueError: Unable to parse string" :=
  of_decide_eq_true (by with_unfolding_all rfl)

/-- C7 amended — a value that fails numeric coercion makes the whole
coercion stage raise: the stage returns an error (no table at all), rather
than dropping just the failing row and continuing with the others. -/
theorem coerceStage_error_of_bad_row (t2 : List CleanRow) (r : CleanRow)
    (m : String) (hr : r ∈ t2) (h : coerceRow r = .error m) :
    ∃ m', coerceStage t2 = .error m' := by
  unfold coerceStage
  revert hr
  induction t2 with
  | nil => intro hr; cases hr
  | cons a as ih =>
    intro hr
    simp only [mapE]
    cases hfa : coerceRow a with
    | error e => rw [ebind_error]; exact ⟨e, rfl⟩
    | ok b =>
      rw [ebind_ok]
      cases hr with
      | head => rw [h] at hfa; simp at hfa
      | tail _ hr' =>
        obtain ⟨m', hm⟩ := ih hr'
        rw [hm, ebind_error]
        exact ⟨m', rfl⟩

/-- Witness for the amended C7 on the concrete two-row table. -/
theorem coerceStage_error_of_bad_row_witness :
    ∃ m', coerceStage
      [⟨"", "a", "3", "3", "3", "3", "9"⟩, ⟨"", "a", "", "3", "3", "3", "9"⟩] =
      .error m' :=
  coerceStage_error_of_bad_row
    [⟨"", "a", "3", "3", "3", "3", "9"⟩, ⟨"", "a", "", "3", "3", "3", "9"⟩]
    ⟨"", "a", "", "3", "3", "3", "9"⟩ "ValueError: Unable to parse string"
    (by decide) (of_decide_eq_true (by with_unfolding_all rfl))

/-! ## Claim C9: idempotence of the type-keyword extractor

Character-level facts about `Char.toLower`/`Char.toUpper`/`Char.isAlpha`
(whose core definitions shift the ASCII letter ranges), followed by the
analysis of the scanner and of `str.title()`. -/

theorem char_toNat_ofNat_valid {n : Nat} (h : n.isValidChar) :
    (Char.ofNat n).toNat = n := by
  simp [Char.ofNat, h, Char.ofNatAux, Char.toNat, UInt32.toNat]

theorem char_toNat_inj {c d : Char} (h : c.toNat = d.toNat) : c = d :=
  Char.eq_of_val_eq (UInt32.toNat.inj h)

theorem toLower_toNat (c : Char) :
    c.toLower.toNat =
      if 65 ≤ c.toNat ∧ c.toNat ≤ 90 then c.toNat + 32 else c.toNat := by
  unfold Char.toLower
  by_cases h : 65 ≤ c.toNat ∧ c.toNat ≤ 90
  · rw [if_pos ⟨h.1, h.2⟩, if_pos h, char_toNat_ofNat_valid (Or.inl (by omega))]
  · rw [if_neg (fun hc => h ⟨hc.1, hc.2⟩), if_neg h]

theorem toUpper_toNat (c : Char) :
    c.toUpper.toNat =
      if 97 ≤ c.toNat ∧ c.toNat ≤ 122 then c.toNat - 32 else c.toNat := by
  unfold Char.toUpper
  by_cases h : 97 ≤ c.toNat ∧ c.toNat ≤ 122
  · rw [if_pos ⟨h.1, h.2⟩, if_pos h, char_toNat_ofNat_valid (Or.inl (by omega))]
  · rw [if_neg (fun hc => h ⟨hc.1, hc.2⟩), if_neg h]

theorem isAlpha_iff_toNat (c : Char) :
    c.isAlpha = true ↔
      (65 ≤ c.toNat ∧ c.toNat ≤ 90) ∨ (97 ≤ c.toNat ∧ c.toNat ≤ 122) := by
  simp only [Char.isAlpha, Char.isUpper, Char.isLower, Bool.or_eq_true,
    Bool.and_eq_true, decide_eq_true_eq]
  exact Iff.rfl

theorem isAlpha_eq_decide (c : Char) :
    c.isAlpha = decide ((65 ≤ c.toNat ∧ c.toNat ≤ 90) ∨
      (97 ≤ c.toNat ∧ c.toNat ≤ 122)) := by
  rcases h : c.isAlpha with _ | _
  · symm
    rw [decide_eq_false_iff_not]
    intro hp
    have hh := (isAlpha_iff_toNat c).mpr hp
    rw [h] at hh
    simp at hh
  · symm
    rw [decide_eq_true_eq]
    exact (isAlpha_iff_toNat c).mp h

theorem toLower_toLower (c : Char) : c.toLower.toLower = c.toLower := by
  apply char_toNat_inj
  rw [toLower_toNat, toLower_toNat c]
  split_ifs <;> omega

theorem toLower_toUpper (c : Char) : c.toUpper.toLower = c.toLower := by
  apply char_toNat_inj
  rw [toLower_toNat, toUpper_toNat, toLower_toNat]
  split_ifs <;> omega

theorem toUpper_congr {c d : Char} (h : c.toLower = d.toLower) :
    c.toUpper = d.toUpper := by
  apply char_toNat_inj
  have hn : c.toLower.toNat = d.toLower.toNat := by rw [h]
  rw [toLower_toNat, toLower_toNat] at hn
  rw [toUpper_toNat, toUpper_toNat]
  revert hn
  split_ifs <;> omega

theorem isAlpha_congr {c d : Char} (h : c.toLower = d.toLower) :
    c.isAlpha = d.isAlpha := by
  have hn : c.toLower.toNat = d.toLower.toNat := by rw [h]
  rw [toLower_toNat, toLower_toNat] at hn
  rw [isAlpha_eq_decide, isAlpha_eq_decide, decide_eq_decide]
  revert hn
  split_ifs <;> omega

theorem toLower_eq_self_of_not_alpha {c : Char} (h : c.isAlpha = false) :
    c.toLower = c := by
  apply char_toNat_inj
  rw [toLower_toNat]
  have hno : ¬((65 ≤ c.toNat ∧ c.toNat ≤ 90) ∨
      (97 ≤ c.toNat ∧ c.toNat ≤ 122)) := by
    intro hp
    have hh := (isAlpha_iff_toNat c).mpr hp
    rw [h] at hh
    simp at hh
  rw [if_neg (fun hc => hno (Or.inl hc))]

-- list-level lemmas

/-- Characterization of the case-insensitive prefix test. -/
theorem matchCI_iff (p : List Char) : ∀ s : List Char,
    matchCI p s = true ↔
      p.length ≤ s.length ∧ (s.take p.length).map Char.toLower = p := by
  induction p with
  | nil => intro s; simp [matchCI]
  | cons a ps ih =>
    intro s
    cases s with
    | nil => simp [matchCI]
    | cons c cs =>
      rw [matchCI]
      rw [Bool.and_eq_true, beq_iff_eq]
      rw [List.length_cons, List.length_cons, List.take_succ_cons,
        List.map_cons, ih cs]
      constructor
      · rintro ⟨h1, h2, h3⟩
        exact ⟨by omega, by rw [h1, h3]⟩
      · rintro ⟨h1, h2⟩
        injection h2 with h2a h2b
        exact ⟨h2a.symm, by omega, h2b⟩

/-- Unfolding of a successful alternation attempt. -/
theorem matchAlt_some {s m : List Char} (h : matchAlt s = some m) :
    ∃ p ∈ vocab, matchCI p s = true ∧ m = s.take p.length := by
  unfold matchAlt at h
  cases hf : vocab.find? (fun p => matchCI p s) with
  | none => rw [hf] at h; exact Option.noConfusion h
  | some p =>
    rw [hf] at h
    have h2 : some (s.take p.length) = some m := h
    injection h2 with h3
    have h4 : (fun q => matchCI q s) p = true :=
      @List.find?_some (List Char) (fun q => matchCI q s) p vocab hf
    exact ⟨p, List.mem_of_find?_eq_some hf, h4, h3.symm⟩

/-- Vocabulary facts, checked by computation. -/
theorem vocab_lower : ∀ p ∈ vocab, p.map Char.toLower = p := by decide

theorem vocab_ne_nil : ∀ p ∈ vocab, p ≠ [] := by decide

theorem vocab_head_ne_space : ∀ p ∈ vocab, p.headD ' ' ≠ ' ' := by decide

theorem vocab_last_alpha : ∀ p ∈ vocab, (p.getLastD 'x').isAlpha = true := by
  decide

theorem vocab_no_pre : ∀ p ∈ vocab, ∀ q ∈ vocab, p ≠ q →
    p.take q.length ≠ q ∧ q.take (p.length + 1) ≠ p ++ [' '] := by decide

/-- A successful match is non-empty. -/
theorem matchAlt_some_ne_nil {s m : List Char} (h : matchAlt s = some m)
    (hs : s ≠ []) : m ≠ [] := by
  obtain ⟨p, hp, hm, he⟩ := matchAlt_some h
  have hp0 : p ≠ [] := vocab_ne_nil p hp
  cases p with
  | nil => exact absurd rfl hp0
  | cons a ps =>
    cases s with
    | nil => exact absurd rfl hs
    | cons c cs =>
      rw [he, List.length_cons, List.take_succ_cons]
      exact List.cons_ne_nil _ _

/-- The fuel of the scanner is irrelevant once it covers the length. -/
theorem findAllF_fuel_le : ∀ (f1 : Nat) (s : List Char) (f2 : Nat),
    s.length ≤ f1 → f1 ≤ f2 → findAllF f1 s = findAllF f2 s := by
  intro f1
  induction f1 with
  | zero =>
    intro s f2 h1 _
    have : s = [] := List.eq_nil_of_length_eq_zero (by omega)
    subst this
    cases f2 <;> rfl
  | succ f ih =>
    intro s f2 h1 h2
    cases s with
    | nil => cases f2 with | zero => omega | succ f2' => rfl
    | cons c cs =>
      cases f2 with
      | zero => omega
      | succ f2' =>
        show findAllF (f + 1) (c :: cs) = findAllF (f2' + 1) (c :: cs)
        rw [findAllF, findAllF]
        cases hm : matchAlt (c :: cs) with
        | none =>
          simp only []
          exact ih cs f2' (by simpa using Nat.le_of_succ_le_succ h1)
            (Nat.le_of_succ_le_succ h2)
        | some m =>
          simp only []
          have hmn : m ≠ [] := matchAlt_some_ne_nil hm (by simp)
          have hlen : ((c :: cs).drop m.length).length ≤ f := by
            rw [List.length_drop]
            have : 0 < m.length := List.length_pos.mpr hmn
            simp only [List.length_cons] at h1 ⊢
            omega
          rw [ih ((c :: cs).drop m.length) f2' hlen (Nat.le_of_succ_le_succ h2)]

/-- Every match the scanner returns lower-cases to a vocabulary word. -/
theorem findAllF_sound : ∀ (fuel : Nat) (s : List Char) (m : List Char),
    m ∈ findAllF fuel s → m.map Char.toLower ∈ vocab := by
  intro fuel
  induction fuel with
  | zero => intro s m hm; simp [findAllF] at hm
  | succ f ih =>
    intro s m hm
    cases s with
    | nil => simp [findAllF] at hm
    | cons c cs =>
      rw [findAllF] at hm
      cases hma : matchAlt (c :: cs) with
      | none =>
        rw [hma] at hm
        exact ih cs m hm
      | some m0 =>
        rw [hma] at hm
        cases hm with
        | head =>
          obtain ⟨p, hp, hci, he⟩ := matchAlt_some hma
          have hch := (matchCI_iff p (c :: cs)).mp hci
          rw [he, hch.2]
          exact hp
        | tail _ hm' => exact ih _ m hm'

theorem findAll_sound {s m : List Char} (h : m ∈ findAll s) :
    m.map Char.toLower ∈ vocab :=
  findAllF_sound s.length s m h

/-- `titleAux` only changes case: the lower-casing of its output is the
lower-casing of its input. -/
theorem lower_titleAux : ∀ (b : Bool) (xs : List Char),
    (titleAux b xs).map Char.toLower = xs.map Char.toLower := by
  intro b xs
  induction xs generalizing b with
  | nil => rfl
  | cons c cs ih =>
    rw [titleAux]
    by_cases hc : c.isAlpha = true
    · rw [if_pos hc, List.map_cons, List.map_cons, ih]
      by_cases hb : b = true
      · rw [if_pos hb, toLower_toLower]
      · rw [if_neg hb, toLower_toUpper]
    · rw [if_neg hc, List.map_cons, List.map_cons, ih]

/-- The alphabetic flag after processing `xs` starting from `b`. -/
def endFlag (b : Bool) (xs : List Char) : Bool :=
  xs.foldl (fun _ c => c.isAlpha) b

theorem endFlag_cons (b : Bool) (c : Char) (cs : List Char) :
    endFlag b (c :: cs) = endFlag c.isAlpha cs := rfl

/-- `titleAux` distributes over append, threading the flag. -/
theorem titleAux_append : ∀ (xs : List Char) (b : Bool) (ys : List Char),
    titleAux b (xs ++ ys) = titleAux b xs ++ titleAux (endFlag b xs) ys := by
  intro xs
  induction xs with
  | nil => intro b ys; rfl
  | cons c cs ih =>
    intro b ys
    rw [List.cons_append, titleAux, titleAux, endFlag_cons]
    cases hc : c.isAlpha
    · simp only [Bool.false_eq_true, if_false, ih, List.cons_append]
    · simp only [if_true, ih, List.cons_append]

/-- `titleAux` depends only on the lower-cased characters. -/
theorem titleAux_congr : ∀ (xs ys : List Char) (b : Bool),
    xs.map Char.toLower = ys.map Char.toLower → titleAux b xs = titleAux b ys := by
  intro xs
  induction xs with
  | nil =>
    intro ys b h
    cases ys with
    | nil => rfl
    | cons d ds => simp at h
  | cons c cs ih =>
    intro ys b h
    cases ys with
    | nil => simp at h
    | cons d ds =>
      rw [List.map_cons, List.map_cons] at h
      injection h with h1 h2
      rw [titleAux, titleAux, isAlpha_congr h1]
      by_cases hd : d.isAlpha = true
      · rw [if_pos hd, if_pos hd, ih ds true h2, h1, toUpper_congr h1]
      · rw [if_neg hd, if_neg hd, ih ds false h2]
        have hcd : c = d := by
          have hc' : c.isAlpha = false := by rw [isAlpha_congr h1]; exact Bool.eq_false_iff.mpr hd
          rw [← toLower_eq_self_of_not_alpha hc', h1,
            toLower_eq_self_of_not_alpha (by rw [← isAlpha_congr h1]; exact hc')]
        rw [hcd]

theorem joinSpaces_single (m : List Char) : joinSpaces [m] = m := by
  simp [joinSpaces, List.intercalate, List.intersperse]

theorem joinSpaces_cons₂ (m x : List Char) (xs : List (List Char)) :
    joinSpaces (m :: x :: xs) = m ++ ' ' :: joinSpaces (x :: xs) := by
  simp [joinSpaces, List.intercalate, List.intersperse]

theorem find?_eq_of_unique {α : Type} (l : List α) (P : α → Bool) (x : α)
    (hx : x ∈ l) (hu : ∀ y ∈ l, P y = true ↔ y = x) : l.find? P = some x := by
  induction l with
  | nil => cases hx
  | cons a as ih =>
    cases hPa : P a
    · have hax : a ≠ x := by
        intro he
        rw [(hu a (List.mem_cons_self a as)).mpr he] at hPa
        exact Bool.true_eq_false.mp hPa
      rw [List.find?_cons_of_neg _ (by rw [hPa]; exact Bool.false_ne_true)]
      cases hx with
      | head => exact absurd rfl hax
      | tail _ hx' =>
        exact ih hx' (fun y hy => hu y (List.mem_cons_of_mem a hy))
    · rw [List.find?_cons_of_pos _ hPa,
        (hu a (List.mem_cons_self a as)).mp hPa]

/-- The word itself matches at the head of `word ++ rest`. -/
theorem matchCI_of_word (p : List Char) (v rest : List Char)
    (hv : v.map Char.toLower = p) : matchCI p (v ++ rest) = true := by
  rw [matchCI_iff]
  have hlen : v.length = p.length := by rw [← hv, List.length_map]
  constructor
  · rw [List.length_append]; omega
  · rw [← hlen, List.take_left, hv]

/-- At the head of `word ++ rest` — with `rest` empty or starting with a
space — the only vocabulary alternative that matches is the word itself. -/
theorem matchCI_only_word (p : List Char) (hp : p ∈ vocab) (v rest : List Char)
    (hv : v.map Char.toLower = p)
    (hrest : rest = [] ∨ ∃ tail, rest = ' ' :: tail) :
    ∀ q ∈ vocab, matchCI q (v ++ rest) = true ↔ q = p := by
  intro q hq
  have hlv : v.length = p.length := by rw [← hv, List.length_map]
  constructor
  · intro hm
    by_contra hne
    have hpq : p ≠ q := fun he => hne he.symm
    obtain ⟨h1, h2⟩ := (matchCI_iff q (v ++ rest)).mp hm
    by_cases hlq : q.length ≤ p.length
    · have htq : (v ++ rest).take q.length = v.take q.length := by
        rw [List.take_append_eq_append_take]
        have hz : q.length - v.length = 0 := by omega
        rw [hz, List.take_zero, List.append_nil]
      rw [htq, List.map_take, hv] at h2
      exact (vocab_no_pre p hp q hq hpq).1 h2
    · rcases hrest with hre | ⟨tail, hre⟩
      · subst hre
        rw [List.append_nil] at h1
        omega
      · subst hre
        have hq1 : (v ++ ' ' :: tail).take q.length =
            v ++ (' ' :: tail).take (q.length - v.length) := by
          rw [List.take_append_eq_append_take, List.take_of_length_le (by omega)]
        have hk : q.length - v.length = (q.length - v.length - 1) + 1 := by
          omega
        rw [hq1, hk, List.take_succ_cons, List.map_append, hv,
          List.map_cons] at h2
        have hsp : Char.toLower ' ' = ' ' := rfl
        rw [hsp] at h2
        have htk : q.take (p.length + 1) = p ++ [' '] := by
          rw [← h2, List.take_append_eq_append_take,
            List.take_of_length_le (by omega)]
          have hlp : p.length + 1 - p.length = 1 := by omega
          rw [hlp, List.take_succ_cons, List.take_zero]
        exact (vocab_no_pre p hp q hq hpq).2 htk
  · intro he
    subst he
    exact matchCI_of_word q v rest hv

/-- The scanner's alternation at the head of `word ++ rest` matches
exactly the word. -/
theorem matchAlt_word (p : List Char) (hp : p ∈ vocab) (v rest : List Char)
    (hv : v.map Char.toLower = p)
    (hrest : rest = [] ∨ ∃ tail, rest = ' ' :: tail) :
    matchAlt (v ++ rest) = some v := by
  unfold matchAlt
  rw [find?_eq_of_unique vocab (fun q => matchCI q (v ++ rest)) p hp
    (matchCI_only_word p hp v rest hv hrest)]
  have hlv : v.length = p.length := by rw [← hv, List.length_map]
  show some ((v ++ rest).take p.length) = some v
  rw [← hlv, List.take_left]

/-- The scanner consumes a leading vocabulary word whole. -/
theorem findAll_word_append (p : List Char) (hp : p ∈ vocab)
    (v rest : List Char) (hv : v.map Char.toLower = p)
    (hrest : rest = [] ∨ ∃ tail, rest = ' ' :: tail) :
    findAll (v ++ rest) = v :: findAll rest := by
  have hvne : v ≠ [] := by
    intro h
    subst h
    exact vocab_ne_nil p hp (by rw [← hv]; rfl)
  cases v with
  | nil => exact absurd rfl hvne
  | cons c v' =>
    have hma := matchAlt_word p hp (c :: v') rest hv hrest
    rw [List.cons_append] at hma
    show findAllF ((c :: v') ++ rest).length ((c :: v') ++ rest) =
      (c :: v') :: findAll rest
    rw [List.cons_append]
    show findAllF ((v' ++ rest).length + 1) (c :: (v' ++ rest)) = _
    rw [findAllF, hma]
    show (c :: v') :: findAllF (v' ++ rest).length
      ((c :: (v' ++ rest)).drop (c :: v').length) = _
    have hdrop : (c :: (v' ++ rest)).drop (c :: v').length = rest := by
      rw [List.length_cons]
      show (c :: (v' ++ rest)).drop (v'.length + 1) = rest
      rw [List.drop_succ_cons, List.drop_left]
    rw [hdrop]
    have hfuel : rest.length ≤ (v' ++ rest).length := by
      rw [List.length_append]; omega
    rw [← findAllF_fuel_le rest.length rest (v' ++ rest).length le_rfl hfuel]
    rfl

/-- The scanner skips a leading space. -/
theorem findAll_cons_space (tail : List Char) :
    findAll (' ' :: tail) = findAll tail := by
  show findAllF (tail.length + 1) (' ' :: tail) = findAll tail
  rw [findAllF]
  have hma : matchAlt (' ' :: tail) = none := by
    unfold matchAlt
    rw [List.find?_eq_none.mpr]
    · rfl
    · intro q hq hmq
      have hqne := vocab_ne_nil q hq
      cases q with
      | nil => exact hqne rfl
      | cons q0 qs =>
        rw [matchCI, Bool.and_eq_true, beq_iff_eq] at hmq
        have hq0 : q0 = ' ' := by rw [hmq.1]; rfl
        exact vocab_head_ne_space (q0 :: qs) hq hq0
  rw [hma]
  rfl

/-- On a space-join of (case variants of) vocabulary words, the scanner
recovers exactly the words. -/
theorem findAll_join : ∀ (ms : List (List Char)),
    (∀ m ∈ ms, m.map Char.toLower ∈ vocab) → findAll (joinSpaces ms) = ms := by
  intro ms
  induction ms with
  | nil => intro _; rfl
  | cons m ms' ih =>
    intro h
    have hm := h m (List.mem_cons_self m ms')
    cases ms' with
    | nil =>
      rw [joinSpaces_single]
      have hfw := findAll_word_append (m.map Char.toLower) hm m [] rfl
        (Or.inl rfl)
      rw [List.append_nil] at hfw
      rw [hfw]
      rfl
    | cons x xs =>
      rw [joinSpaces_cons₂]
      rw [findAll_word_append (m.map Char.toLower) hm m
        (' ' :: joinSpaces (x :: xs)) rfl (Or.inr ⟨_, rfl⟩)]
      rw [findAll_cons_space]
      rw [ih (fun y hy => h y (List.mem_cons_of_mem m hy))]

theorem getLastD_of_ne_nil {α : Type} : ∀ (xs : List α), xs ≠ [] →
    ∀ (d d' : α), xs.getLastD d = xs.getLastD d' := by
  intro xs h d d'
  cases xs with
  | nil => exact absurd rfl h
  | cons c cs => simp only [List.getLastD_cons]

/-- The flag after a block ending in an alphabetic character is set. -/
theorem endFlag_of_last_alpha : ∀ (xs : List Char) (b : Bool), xs ≠ [] →
    (xs.getLastD 'x').isAlpha = true → endFlag b xs = true := by
  intro xs
  induction xs with
  | nil => intro b h; exact absurd rfl h
  | cons c cs ih =>
    intro b _ hl
    rw [endFlag_cons]
    cases cs with
    | nil => exact hl
    | cons x xs' =>
      rw [List.getLastD_cons] at hl
      exact ih c.isAlpha (List.cons_ne_nil x xs')
        (by rw [getLastD_of_ne_nil (x :: xs') (List.cons_ne_nil x xs') 'x' c]
            exact hl)

/-- `str.title()` distributes over a space-join of non-empty words ending
in letters. -/
theorem pythonTitle_join : ∀ (ms : List (List Char)),
    (∀ m ∈ ms, m ≠ [] ∧ (m.getLastD 'x').isAlpha = true) →
    pythonTitle (joinSpaces ms) = joinSpaces (ms.map pythonTitle) := by
  intro ms
  induction ms with
  | nil => intro _; rfl
  | cons m ms' ih =>
    intro h
    have hm := h m (List.mem_cons_self m ms')
    cases ms' with
    | nil => rw [joinSpaces_single, List.map_cons, List.map_nil,
        joinSpaces_single]
    | cons x xs =>
      rw [joinSpaces_cons₂]
      show titleAux false (m ++ ' ' :: joinSpaces (x :: xs)) = _
      rw [titleAux_append, endFlag_of_last_alpha m false hm.1 hm.2]
      have hsp : titleAux true (' ' :: joinSpaces (x :: xs)) =
          ' ' :: titleAux false (joinSpaces (x :: xs)) := by
        rw [titleAux, if_neg (by decide)]
      rw [hsp]
      show titleAux false m ++ ' ' :: pythonTitle (joinSpaces (x :: xs)) = _
      rw [ih (fun y hy => h y (List.mem_cons_of_mem m hy))]
      conv_rhs => rw [List.map_cons, List.map_cons, joinSpaces_cons₂]
      conv_lhs => rw [List.map_cons]
      rfl

/-- A case variant of a vocabulary word is non-empty and ends in a
letter. -/
theorem word_conds {m : List Char} (h : m.map Char.toLower ∈ vocab) :
    m ≠ [] ∧ (m.getLastD 'x').isAlpha = true := by
  have hne : m ≠ [] := by
    intro he
    subst he
    exact vocab_ne_nil [] h rfl
  refine ⟨hne, ?_⟩
  have hl : (m.map Char.toLower).getLastD 'x' = Char.toLower (m.getLastD 'x') := by
    have := List.getLastD_map Char.toLower m 'x'
    rw [show Char.toLower 'x' = 'x' from rfl] at this
    exact this
  have hp_low : Char.toLower ((m.map Char.toLower).getLastD 'x') =
      (m.map Char.toLower).getLastD 'x' := by
    conv_rhs => rw [← vocab_lower (m.map Char.toLower) h]
    have := List.getLastD_map Char.toLower (m.map Char.toLower) 'x'
    rw [show Char.toLower 'x' = 'x' from rfl] at this
    exact this.symm
  rw [isAlpha_congr (c := m.getLastD 'x') (d := (m.map Char.toLower).getLastD 'x')
    (by rw [← hl, hp_low])]
  exact vocab_last_alpha (m.map Char.toLower) h

/-- C9 — `extract_details` is idempotent: re-applying it to its own output
returns the output unchanged. -/
theorem extract_details_idem (t : String) :
    extract_details (extract_details t) = extract_details t := by
  show String.mk (pythonTitle (joinSpaces (findAll
      (pythonTitle (joinSpaces (findAll t.data)))))) =
    String.mk (pythonTitle (joinSpaces (findAll t.data)))
  have hsound : ∀ m ∈ findAll t.data, m.map Char.toLower ∈ vocab :=
    fun _ hm => findAll_sound hm
  have hcond : ∀ m ∈ findAll t.data, m ≠ [] ∧ (m.getLastD 'x').isAlpha = true :=
    fun m hm => word_conds (hsound m hm)
  have h1 : pythonTitle (joinSpaces (findAll t.data)) =
      joinSpaces ((findAll t.data).map pythonTitle) :=
    pythonTitle_join (findAll t.data) hcond
  have hsound' : ∀ m ∈ (findAll t.data).map pythonTitle,
      m.map Char.toLower ∈ vocab := by
    intro m hm
    obtain ⟨m0, hm0, he⟩ := List.mem_map.mp hm
    subst he
    show (titleAux false m0).map Char.toLower ∈ vocab
    rw [lower_titleAux]
    exact hsound m0 hm0
  have hcond' : ∀ m ∈ (findAll t.data).map pythonTitle,
      m ≠ [] ∧ (m.getLastD 'x').isAlpha = true :=
    fun m hm => word_conds (hsound' m hm)
  rw [h1, findAll_join ((findAll t.data).map pythonTitle) hsound',
    pythonTitle_join ((findAll t.data).map pythonTitle) hcond']
  have h3 : ((findAll t.data).map pythonTitle).map pythonTitle =
      (findAll t.data).map pythonTitle := by
    rw [List.map_map]
    apply List.map_congr_left
    intro m _
    show pythonTitle (pythonTitle m) = pythonTitle m
    exact titleAux_congr _ _ false (lower_titleAux false m)
  rw [h3]

end HousePred

